import Mathlib

/-!
Verification development for the mcx-notes local-first notes application.

The development shallowly embeds the two core modules of the repository:

* the encryption layer (encryptContent, decryptContent, the password cache)
  from the crypto source file, and
* the local store plus sync engine (NotesDatabase, SyncEngine) from the
  sync source file, together with the Dexie-backed store variant that
  carries the encryption envelope fields.

JavaScript peculiarities that matter to the claims are modelled explicitly:
Date.now() becomes an explicit time argument, falsiness checks on optional
strings and numbers become jsFalsyStr and jsFalsyNat, and the platform
primitives (crypto.subtle AEAD and key derivation, TextEncoder and
TextDecoder) become an abstract CryptoPlatform record since they are
external to the repository.  Binary data is a list of byte values (Nat
below 256 where it matters).  A Dexie table keyed by id and the JS Map of
the password cache are both association lists with upsert-by-key.
-/

namespace McxNotes

/-! ## Generic keyed table (Dexie table by primary key, JS Map) -/

section Table

variable {α : Type} (key : α → String)

/-- Lookup by key: first entry whose key matches. -/
def tblGet (db : List α) (i : String) : Option α :=
  db.find? (fun n => key n == i)

/-- Upsert by key: replace the entry with the same key, else append. -/
def tblPut : List α → α → List α
  | [], x => [x]
  | n :: rest, x => if key n == key x then x :: rest else n :: tblPut rest x

/-- Delete by key: remove every entry whose key matches. -/
def tblDelete (db : List α) (i : String) : List α :=
  db.filter (fun n => !(key n == i))

end Table

/-! ## Encryption layer (crypto source file)

The source encrypts with AES-256-GCM via crypto.subtle after deriving the
key with PBKDF2-SHA256; those primitives, together with TextEncoder and
TextDecoder, are browser platform functions external to the repository, so
they are modelled as an abstract CryptoPlatform record.  The repository
code around them, the byte-to-base64 conversions, the split of the GCM
output into ciphertext and a 16-byte auth tag, the recombination on
decrypt, and the error handling, is embedded concretely.  The btoa and
atob conversions applied to the byte-to-latin1 strings built by
arrayBufferToBase64 and base64ToArrayBuffer amount to plain base64 over
the byte lists, which is what b64EncodeChars and b64DecodeChars compute.
-/

namespace Crypto

def PBKDF2_ITERATIONS : Nat := 100000

def AES_KEY_LENGTH : Nat := 256

def SALT_LENGTH : Nat := 16

def NONCE_LENGTH : Nat := 12

/-- Base64 alphabet in index order. -/
def b64Alphabet : List Char :=
  "ABCDEFGHIJKLMNOPQRSTUVWXYZabcdefghijklmnopqrstuvwxyz0123456789+/".data

/-- Character for a sextet value. -/
def b64Char (i : Nat) : Char := b64Alphabet.getD i 'A'

/-- Sextet value of an alphabet character (list index). -/
def b64Index (c : Char) : Nat := b64Alphabet.indexOf c

/-- Base64 encoding of a byte list, chunked in threes with padding. -/
def b64EncodeChars : List Nat → List Char
  | [] => []
  | [b0] =>
    [b64Char (b0 / 4), b64Char (b0 % 4 * 16), '=', '=']
  | [b0, b1] =>
    [b64Char (b0 / 4), b64Char (b0 % 4 * 16 + b1 / 16), b64Char (b1 % 16 * 4), '=']
  | b0 :: b1 :: b2 :: rest =>
    b64Char (b0 / 4) :: b64Char (b0 % 4 * 16 + b1 / 16) ::
      b64Char (b1 % 16 * 4 + b2 / 64) :: b64Char (b2 % 64) :: b64EncodeChars rest

/-- Base64 decoding back to bytes; a trailing quad may carry padding. -/
def b64DecodeChars : List Char → List Nat
  | [c0, c1, c2, c3] =>
    if c2 = '=' then [b64Index c0 * 4 + b64Index c1 / 16]
    else if c3 = '=' then
      [b64Index c0 * 4 + b64Index c1 / 16, b64Index c1 % 16 * 16 + b64Index c2 / 4]
    else
      [b64Index c0 * 4 + b64Index c1 / 16, b64Index c1 % 16 * 16 + b64Index c2 / 4,
        b64Index c2 % 4 * 64 + b64Index c3]
  | c0 :: c1 :: c2 :: c3 :: rest =>
    (b64Index c0 * 4 + b64Index c1 / 16) :: (b64Index c1 % 16 * 16 + b64Index c2 / 4) ::
      (b64Index c2 % 4 * 64 + b64Index c3) :: b64DecodeChars rest
  | _ => []

/-- Bytes of an ArrayBuffer rendered as base64 text (source helper). -/
def arrayBufferToBase64 (bytes : List Nat) : String :=
  String.mk (b64EncodeChars bytes)

/-- Base64 text decoded back to raw bytes (source helper). -/
def base64ToArrayBuffer (s : String) : List Nat :=
  b64DecodeChars s.data

/-- Envelope returned by encryptContent; every field is base64 text. -/
structure EncryptedData where
  encryptedContent : String
  salt : String
  nonce : String
  authTag : String
  deriving DecidableEq

/-- Browser platform primitives used by the encryption layer: TextEncoder
and TextDecoder, PBKDF2 key derivation, and the AES-GCM AEAD whose encrypt
output carries the 16-byte auth tag as its suffix.  They are external to
the repository, so the embedding abstracts them; theorems state the
platform facts they rely on as explicit hypotheses. -/
structure CryptoPlatform where
  utf8Encode : String → List Nat
  utf8Decode : List Nat → String
  deriveKey : String → List Nat → List Nat
  aeadEncrypt : List Nat → List Nat → List Nat → List Nat
  aeadDecrypt : List Nat → List Nat → List Nat → Option (List Nat)

/-- Embedding of encryptContent.  The fresh random salt and nonce drawn
from crypto.getRandomValues are passed in as explicit arguments. -/
def encryptContent (P : CryptoPlatform) (content password : String)
    (salt nonce : List Nat) : EncryptedData :=
  let data := P.utf8Encode content
  let key := P.deriveKey password salt
  let encryptedBytes := P.aeadEncrypt key nonce data
  let tagLength := 16
  let ciphertext := encryptedBytes.take (encryptedBytes.length - tagLength)
  let authTag := encryptedBytes.drop (encryptedBytes.length - tagLength)
  { encryptedContent := arrayBufferToBase64 ciphertext
    salt := arrayBufferToBase64 salt
    nonce := arrayBufferToBase64 nonce
    authTag := arrayBufferToBase64 authTag }

/-- Error raised by decryptContent when authenticated decryption fails
(the catch branch wrapping the crypto.subtle rejection). -/
inductive DecryptError where
  | authenticationError
  deriving DecidableEq

/-- Embedding of decryptContent: decode the four fields, re-append the
auth tag to the ciphertext, derive the key from the stored salt, and run
authenticated decryption; a rejection becomes the authentication error. -/
def decryptContent (P : CryptoPlatform) (encryptedData : EncryptedData)
    (password : String) : Except DecryptError String :=
  let salt := base64ToArrayBuffer encryptedData.salt
  let nonce := base64ToArrayBuffer encryptedData.nonce
  let ciphertext := base64ToArrayBuffer encryptedData.encryptedContent
  let authTag := base64ToArrayBuffer encryptedData.authTag
  let encrypted := ciphertext ++ authTag
  let key := P.deriveKey password salt
  match P.aeadDecrypt key nonce encrypted with
  | some decrypted => Except.ok (P.utf8Decode decrypted)
  | none => Except.error DecryptError.authenticationError

def PASSWORD_CACHE_DURATION : Nat := 30 * 60 * 1000

/-- Entry of the in-memory password cache. -/
structure CachedPassword where
  password : String
  expiresAt : Nat
  deriving DecidableEq

/-- Password cache: a JS Map from note id to cached entry. -/
def PasswordCache : Type := List (String × CachedPassword)

def cacheKey (p : String × CachedPassword) : String := p.1

/-- Embedding of cachePassword; Date.now() is the explicit now argument. -/
def cachePassword (cache : PasswordCache) (noteId password : String)
    (now : Nat) : PasswordCache :=
  tblPut cacheKey cache
    (noteId, { password, expiresAt := now + PASSWORD_CACHE_DURATION })

/-- Embedding of getCachedPassword: returns the entry while unexpired and
lazily evicts an expired entry on read.  The returned pair carries the
cache state after the call. -/
def getCachedPassword (cache : PasswordCache) (noteId : String)
    (now : Nat) : Option String × PasswordCache :=
  match tblGet cacheKey cache noteId with
  | none => (none, cache)
  | some cached =>
    if now > cached.2.expiresAt then (none, tblDelete cacheKey cache noteId)
    else (some cached.2.password, cache)

end Crypto

/-! ## JavaScript falsiness helpers -/

/-- Truth of the JS negation applied to an optional string: undefined and
the empty string are falsy. -/
def jsFalsyStr : Option String → Bool
  | none => true
  | some s => s == ""

/-- Truth of the JS negation applied to an optional number: undefined and
zero are falsy. -/
def jsFalsyNat : Option Nat → Bool
  | none => true
  | some k => k == 0

/-! ## Local store and sync engine (sync source file)

NotesDatabase is a Dexie table of notes keyed by id; it is modelled as an
association list with upsert-by-id.  Every Date.now() call is an explicit
time argument.  The Supabase remote store is an external collaborator: the
batch upsert outcome of the push phase is a boolean argument and the pull
phase's select response is a list argument. -/

namespace Sync

/-- Note record of the sync-engine store.  The optional deleted flag of
the source is a plain Bool since JS treats undefined as false. -/
structure Note where
  id : String
  title : String
  content : String
  createdAt : Nat
  updatedAt : Nat
  userId : Option String
  syncedAt : Option Nat
  deleted : Bool
  deriving DecidableEq

/-- Row shape sent to and received from the Supabase notes table. -/
structure RemoteNote where
  id : String
  user_id : Option String
  title : String
  content : String
  created_at : Nat
  updated_at : Nat
  deleted : Bool
  deriving DecidableEq

/-- Lookup in the notes table. -/
def noteGet (db : List Note) (i : String) : Option Note :=
  tblGet (fun n => n.id) db i

/-- Upsert into the notes table (Dexie put). -/
def notePut (db : List Note) (n : Note) : List Note :=
  tblPut (fun n => n.id) db n

/-- Embedding of NotesDatabase.deleteNote: soft delete, a tombstone put
that sets the deleted flag and stamps updatedAt with the current time. -/
def deleteNote (db : List Note) (i : String) (now : Nat) : List Note :=
  match noteGet db i with
  | some note => notePut db { note with deleted := true, updatedAt := now }
  | none => db

/-- Embedding of NotesDatabase.hardDeleteNote. -/
def hardDeleteNote (db : List Note) (i : String) : List Note :=
  tblDelete (fun n => n.id) db i

/-- Dirtiness test of getUnsyncedNotes: syncedAt falsy, or updatedAt
beyond syncedAt. -/
def isDirty (n : Note) : Bool :=
  jsFalsyNat n.syncedAt || decide (n.updatedAt > n.syncedAt.getD 0)

/-- Embedding of NotesDatabase.getUnsyncedNotes: the owner's dirty notes. -/
def getUnsyncedNotes (db : List Note) (userId : String) : List Note :=
  db.filter (fun n => n.userId == some userId && isDirty n)

/-- Embedding of NotesDatabase.markAsSynced: stamp syncedAt with the
current time. -/
def markAsSynced (db : List Note) (i : String) (now : Nat) : List Note :=
  match noteGet db i with
  | some note => notePut db { note with syncedAt := some now }
  | none => db

/-- Embedding of NotesDatabase.migrateAnonymousNotes: snapshot the
anonymous non-tombstoned notes, then put each back with the owner set and
updatedAt stamped. -/
def migrateAnonymousNotes (db : List Note) (userId : String)
    (now : Nat) : List Note :=
  (db.filter (fun n => jsFalsyStr n.userId && !n.deleted)).foldl
    (fun d note => notePut d { note with userId := some userId, updatedAt := now }) db

/-- Row sent by the push phase for one note. -/
def noteToRemote (n : Note) : RemoteNote :=
  { id := n.id, user_id := n.userId, title := n.title, content := n.content,
    created_at := n.createdAt, updated_at := n.updatedAt, deleted := n.deleted }

/-- Local handling of one pushed note after a successful batch upsert:
tombstones are hard-purged, the rest are marked synced. -/
def pushApply (now : Nat) (d : List Note) (note : Note) : List Note :=
  if note.deleted then hardDeleteNote d note.id else markAsSynced d note.id now

/-- Embedding of SyncEngine.pushChanges.  The first component is the batch
handed to the remote upsert (none when no network call happens); ok tells
whether the remote batch upsert succeeded, and on failure no local write
runs. -/
def pushChanges (db : List Note) (userId : String) (ok : Bool)
    (now : Nat) : Option (List RemoteNote) × List Note :=
  let unsyncedNotes := getUnsyncedNotes db userId
  if unsyncedNotes.isEmpty then (none, db)
  else
    let notesToSync := unsyncedNotes.map noteToRemote
    if ok then (some notesToSync, unsyncedNotes.foldl (pushApply now) db)
    else (some notesToSync, db)

/-- Embedding of SyncEngine.pullChanges applied to the remote response:
remote tombstones are hard-purged, anything else is upserted locally with
syncedAt set to the pull time and no deleted flag. -/
def pullChanges (db : List Note) (remoteNotes : List RemoteNote)
    (now : Nat) : List Note :=
  remoteNotes.foldl
    (fun d rn =>
      if rn.deleted then hardDeleteNote d rn.id
      else
        notePut d
          { id := rn.id, userId := rn.user_id, title := rn.title,
            content := rn.content, createdAt := rn.created_at,
            updatedAt := rn.updated_at, syncedAt := some now, deleted := false })
    db

/-- One sync cycle: push, then pull over the remote response. -/
def syncCycle (db : List Note) (userId : String) (ok : Bool)
    (remoteNotes : List RemoteNote) (tPush tPull : Nat) :
    Option (List RemoteNote) × List Note :=
  let pushed := pushChanges db userId ok tPush
  (pushed.1, pullChanges pushed.2 remoteNotes tPull)

/-! ### Single-flight state machine

SyncEngine.sync begins with a synchronous guard on the isSyncing flag: a
trigger that finds the flag set returns at once, issuing no batch.
Otherwise the flag is set and the cycle awaits its push then its pull,
and the finally clears the flag.  JavaScript interleaves only at awaits,
so the cycle is a queue of pending awaited phases and a trigger is atomic
up to the first await. -/

inductive SyncPhase where
  | push
  | pull
  deriving DecidableEq

/-- Engine state: the in-progress flag and the awaited phases of the
in-flight cycle. -/
structure Engine where
  isSyncing : Bool
  pending : List SyncPhase
  deriving DecidableEq

/-- Engine at rest between cycles. -/
def idleEngine : Engine := { isSyncing := false, pending := [] }

/-- Synchronous prefix of SyncEngine.sync: drop the trigger if a cycle is
in flight, else mark the cycle in flight with both phases ahead. -/
def syncTrigger (e : Engine) : Engine :=
  if e.isSyncing then e
  else { isSyncing := true, pending := [SyncPhase.push, SyncPhase.pull] }

/-- Run the in-flight cycle to completion, emitting one batch per phase;
the finally clears the flag after the last phase. -/
def runPhases : Bool → List SyncPhase → Engine × List SyncPhase
  | b, [] => ({ isSyncing := b, pending := [] }, [])
  | _, [p] => ({ isSyncing := false, pending := [] }, [p])
  | _, p :: rest =>
    let next := runPhases true rest
    (next.1, p :: next.2)

/-- Batches put in flight when the pending cycle of an engine state runs
to completion. -/
def runCycle (e : Engine) : Engine × List SyncPhase :=
  runPhases e.isSyncing e.pending

end Sync

/-! ## Dexie store with encryption envelope (crypto-era NotesDatabase)

This is the Dexie NotesDatabase variant whose Note record carries the
optional encryption envelope fields.  Its saveNote mirrors owned notes to
Supabase, passing each envelope field independently with falsy fields sent
as null, and then puts the note locally as given. -/

namespace EncDb

/-- Note record with the optional encryption envelope fields. -/
structure ENote where
  id : String
  title : String
  content : String
  createdAt : Nat
  updatedAt : Nat
  userId : Option String
  deleted : Bool
  encryptedContent : Option String
  salt : Option String
  nonce : Option String
  authTag : Option String
  deriving DecidableEq

/-- Row upserted into the Supabase notes table by saveNote. -/
structure RemoteRow where
  id : String
  user_id : String
  title : String
  content : String
  created_at : Nat
  updated_at : Nat
  encrypted_content : Option String
  salt : Option String
  nonce : Option String
  auth_tag : Option String
  deriving DecidableEq

/-- Value of the JS expression x or-else null on an optional string. -/
def orNull : Option String → Option String
  | none => none
  | some s => if s == "" then none else some s

/-- Lookup in the envelope-carrying notes table. -/
def enoteGet (db : List ENote) (i : String) : Option ENote :=
  tblGet (fun n => n.id) db i

/-- Embedding of the crypto-era NotesDatabase.saveNote: owned notes are
mirrored to the remote row shape, then the note is put locally exactly as
given.  No check relates the envelope fields to one another. -/
def saveNote (db : List ENote) (note : ENote) :
    Option RemoteRow × List ENote :=
  let remote :=
    if jsFalsyStr note.userId then none
    else
      some
        { id := note.id, user_id := note.userId.getD "", title := note.title,
          content := note.content, created_at := note.createdAt,
          updated_at := note.updatedAt,
          encrypted_content := orNull note.encryptedContent,
          salt := orNull note.salt, nonce := orNull note.nonce,
          auth_tag := orNull note.authTag }
  (remote, tblPut (fun n => n.id) db note)

/-- Spec predicate: the four envelope fields are jointly present. -/
def envelopeComplete (n : ENote) : Bool :=
  n.encryptedContent.isSome && n.salt.isSome && n.nonce.isSome && n.authTag.isSome

/-- Spec predicate: the four envelope fields are jointly absent. -/
def envelopeAbsent (n : ENote) : Bool :=
  n.encryptedContent.isNone && n.salt.isNone && n.nonce.isNone && n.authTag.isNone

/-- Spec invariant: the envelope is never partially set. -/
def envelopeWellFormed (n : ENote) : Bool :=
  envelopeComplete n || envelopeAbsent n

end EncDb

/-! ## Concrete instances used by witnesses -/

/-- Checksum tag of the concrete platform below. -/
def toyTag (key nonce data : List Nat) : List Nat :=
  List.replicate 16 ((key.sum + nonce.sum + data.sum) % 256)

/-- Concrete crypto platform instantiating the abstract browser
primitives in witnesses: ASCII text codecs, key derivation by
concatenation, and an invertible AEAD that appends a 16-byte checksum tag
and rejects any input whose tag does not match. -/
def toyPlatform : Crypto.CryptoPlatform :=
  { utf8Encode := fun s => s.data.map Char.toNat
    utf8Decode := fun l => String.mk (l.map Char.ofNat)
    deriveKey := fun pw salt => pw.data.map Char.toNat ++ salt
    aeadEncrypt := fun key nonce data => data ++ toyTag key nonce data
    aeadDecrypt := fun key nonce enc =>
      let ct := enc.take (enc.length - 16)
      let tg := enc.drop (enc.length - 16)
      if 16 ≤ enc.length ∧ tg = toyTag key nonce ct then some ct else none }

/-- Note holding only one envelope field, used against the validation
claim. -/
def brokenEnvelopeNote : EncDb.ENote :=
  { id := "n1", title := "t", content := "c", createdAt := 1, updatedAt := 1,
    userId := some "u1", deleted := false,
    encryptedContent := none, salt := some "s", nonce := none, authTag := none }

/-- Owned note that has never been synced. -/
def neverSyncedNote : Sync.Note :=
  { id := "a", title := "t", content := "body", createdAt := 1, updatedAt := 1,
    userId := some "u", syncedAt := none, deleted := false }

/-- Owned note that has been synced and not edited since. -/
def syncedNote : Sync.Note :=
  { id := "a", title := "t", content := "body", createdAt := 1, updatedAt := 2,
    userId := some "u", syncedAt := some 3, deleted := false }

/-- Anonymous note that has never been synced. -/
def anonNote : Sync.Note :=
  { id := "a", title := "t", content := "body", createdAt := 1, updatedAt := 1,
    userId := none, syncedAt := none, deleted := false }

/-! ## Keyed-table lemmas -/

section TableLemmas

variable {α : Type} (key : α → String)

theorem tblGet_cons_self {n : α} {rest : List α} {i : String}
    (h : key n = i) : tblGet key (n :: rest) i = some n := by
  rw [tblGet, List.find?_cons_of_pos]
  simp [h]

theorem tblGet_cons_ne {n : α} {rest : List α} {i : String}
    (h : key n ≠ i) : tblGet key (n :: rest) i = tblGet key rest i := by
  rw [tblGet, List.find?_cons_of_neg, tblGet]
  simp [h]

theorem tblPut_cons_eq {n : α} {rest : List α} {x : α}
    (h : key n = key x) : tblPut key (n :: rest) x = x :: rest := by
  rw [tblPut, if_pos (by simp [h])]

theorem tblPut_cons_ne {n : α} {rest : List α} {x : α}
    (h : key n ≠ key x) : tblPut key (n :: rest) x = n :: tblPut key rest x := by
  rw [tblPut, if_neg (by simp [h])]

theorem tblGet_tblPut_self (db : List α) (x : α) :
    tblGet key (tblPut key db x) (key x) = some x := by
  induction db with
  | nil => exact tblGet_cons_self key rfl
  | cons n rest ih =>
    by_cases h : key n = key x
    · rw [tblPut_cons_eq key h]
      exact tblGet_cons_self key rfl
    · rw [tblPut_cons_ne key h, tblGet_cons_ne key h]
      exact ih

theorem tblGet_tblPut_ne (db : List α) (x : α) (i : String) (h : i ≠ key x) :
    tblGet key (tblPut key db x) i = tblGet key db i := by
  induction db with
  | nil =>
    rw [tblPut, tblGet_cons_ne key (fun hc => h hc.symm)]
  | cons n rest ih =>
    by_cases hk : key n = key x
    · rw [tblPut_cons_eq key hk,
        tblGet_cons_ne key (fun hc => h hc.symm),
        tblGet_cons_ne key (fun hc => h (hk ▸ hc).symm)]
    · rw [tblPut_cons_ne key hk]
      by_cases hn : key n = i
      · rw [tblGet_cons_self key hn, tblGet_cons_self key hn]
      · rw [tblGet_cons_ne key hn, tblGet_cons_ne key hn]
        exact ih

theorem mem_tblPut_weak {db : List α} {x y : α} (h : y ∈ tblPut key db x) :
    y = x ∨ y ∈ db := by
  induction db with
  | nil => simpa [tblPut] using h
  | cons n rest ih =>
    by_cases hk : key n = key x
    · rw [tblPut_cons_eq key hk] at h
      rcases List.mem_cons.mp h with h1 | h2
      · exact Or.inl h1
      · exact Or.inr (List.mem_cons_of_mem _ h2)
    · rw [tblPut_cons_ne key hk] at h
      rcases List.mem_cons.mp h with h1 | h2
      · exact Or.inr (h1 ▸ List.mem_cons_self _ _)
      · rcases ih h2 with h3 | h4
        · exact Or.inl h3
        · exact Or.inr (List.mem_cons_of_mem _ h4)

theorem self_mem_tblPut (db : List α) (x : α) : x ∈ tblPut key db x := by
  induction db with
  | nil => simp [tblPut]
  | cons n rest ih =>
    by_cases hk : key n = key x
    · rw [tblPut_cons_eq key hk]
      exact List.mem_cons_self _ _
    · rw [tblPut_cons_ne key hk]
      exact List.mem_cons_of_mem _ ih

theorem mem_tblPut_nodup {db : List α} {x y : α}
    (hnd : (db.map key).Nodup) (h : y ∈ tblPut key db x) :
    y = x ∨ (y ∈ db ∧ key y ≠ key x) := by
  induction db with
  | nil => simpa [tblPut] using h
  | cons n rest ih =>
    rw [List.map_cons, List.nodup_cons] at hnd
    by_cases hk : key n = key x
    · rw [tblPut_cons_eq key hk] at h
      rcases List.mem_cons.mp h with h1 | h2
      · exact Or.inl h1
      · refine Or.inr ⟨List.mem_cons_of_mem _ h2, ?_⟩
        intro hky
        exact hnd.1 (by
          rw [hk, ← hky]
          exact List.mem_map_of_mem key h2)
    · rw [tblPut_cons_ne key hk] at h
      rcases List.mem_cons.mp h with h1 | h2
      · exact Or.inr ⟨h1 ▸ List.mem_cons_self _ _, h1 ▸ hk⟩
      · rcases ih hnd.2 h2 with h3 | h4
        · exact Or.inl h3
        · exact Or.inr ⟨List.mem_cons_of_mem _ h4.1, h4.2⟩

theorem keys_tblPut_nodup {db : List α} (x : α)
    (hnd : (db.map key).Nodup) : ((tblPut key db x).map key).Nodup := by
  induction db with
  | nil => simp [tblPut]
  | cons n rest ih =>
    rw [List.map_cons, List.nodup_cons] at hnd
    by_cases hk : key n = key x
    · rw [tblPut_cons_eq key hk, List.map_cons, List.nodup_cons]
      exact ⟨fun hm => hnd.1 (hk ▸ hm), hnd.2⟩
    · rw [tblPut_cons_ne key hk, List.map_cons, List.nodup_cons]
      refine ⟨?_, ih hnd.2⟩
      intro hm
      rcases List.mem_map.mp hm with ⟨y, hy, hky⟩
      rcases mem_tblPut_weak key hy with h1 | h2
      · exact hk (hky ▸ h1 ▸ rfl)
      · exact hnd.1 (hky ▸ List.mem_map_of_mem key h2)

theorem mem_tblDelete {db : List α} {i : String} {y : α}
    (h : y ∈ tblDelete key db i) : y ∈ db ∧ key y ≠ i := by
  rw [tblDelete] at h
  have h2 := List.mem_filter.mp h
  refine ⟨h2.1, ?_⟩
  intro hk
  simpa [hk] using h2.2

theorem keys_tblDelete_nodup {db : List α} (i : String)
    (hnd : (db.map key).Nodup) : ((tblDelete key db i).map key).Nodup := by
  have hsub : List.Sublist (tblDelete key db i) db := List.filter_sublist db
  exact ((hsub.map key).nodup) hnd

theorem tblGet_tblDelete_self (db : List α) (i : String) :
    tblGet key (tblDelete key db i) i = none := by
  rw [tblGet, List.find?_eq_none]
  intro y hy
  have := (mem_tblDelete key hy).2
  simp [this]

theorem tblDelete_cons_eq {n : α} {rest : List α} {i : String}
    (h : key n = i) : tblDelete key (n :: rest) i = tblDelete key rest i := by
  rw [tblDelete, List.filter_cons_of_neg, tblDelete]
  simp [h]

theorem tblDelete_cons_ne {n : α} {rest : List α} {i : String}
    (h : key n ≠ i) : tblDelete key (n :: rest) i = n :: tblDelete key rest i := by
  rw [tblDelete, List.filter_cons_of_pos, tblDelete]
  simp [h]

theorem tblGet_tblDelete_ne (db : List α) (i j : String) (h : i ≠ j) :
    tblGet key (tblDelete key db j) i = tblGet key db i := by
  induction db with
  | nil => simp [tblGet, tblDelete]
  | cons n rest ih =>
    by_cases hn : key n = j
    · rw [tblDelete_cons_eq key hn,
        tblGet_cons_ne key (fun hc => h (hc.symm.trans hn))]
      exact ih
    · by_cases hi : key n = i
      · rw [tblDelete_cons_ne key hn, tblGet_cons_self key hi,
          tblGet_cons_self key hi]
      · rw [tblDelete_cons_ne key hn, tblGet_cons_ne key hi,
          tblGet_cons_ne key hi]
        exact ih

theorem tblGet_eq_some_mem {db : List α} {i : String} {y : α}
    (h : tblGet key db i = some y) : y ∈ db ∧ key y = i := by
  rw [tblGet] at h
  refine ⟨List.mem_of_find?_eq_some h, ?_⟩
  have := List.find?_some h
  simpa using this

theorem tblGet_ne_none_of_mem {db : List α} {i : String} {y : α}
    (hy : y ∈ db) (hk : key y = i) : tblGet key db i ≠ none := by
  rw [tblGet, Ne, List.find?_eq_none]
  intro hall
  exact hall y hy (by simp [hk])

theorem tblGet_of_mem_nodup {db : List α} {y : α}
    (hnd : (db.map key).Nodup) (hy : y ∈ db) :
    tblGet key db (key y) = some y := by
  induction db with
  | nil => cases hy
  | cons n rest ih =>
    rw [List.map_cons, List.nodup_cons] at hnd
    rcases List.mem_cons.mp hy with h1 | h2
    · subst h1
      exact tblGet_cons_self key rfl
    · have hne : key n ≠ key y := by
        intro hc
        exact hnd.1 (hc ▸ List.mem_map_of_mem key h2)
      rw [tblGet_cons_ne key hne]
      exact ih hnd.2 h2

theorem mem_unique_of_nodup {db : List α} {a b : α}
    (hnd : (db.map key).Nodup) (ha : a ∈ db) (hb : b ∈ db)
    (hk : key a = key b) : a = b := by
  have h1 := tblGet_of_mem_nodup key hnd ha
  have h2 := tblGet_of_mem_nodup key hnd hb
  rw [hk] at h1
  rw [h1] at h2
  exact Option.some_inj.mp h2

end TableLemmas

/-! ## Base64 lemmas -/

namespace Crypto

theorem b64Index_b64Char : ∀ i, i < 64 → b64Index (b64Char i) = i := by
  decide

theorem b64Char_ne_pad : ∀ i, i < 64 → b64Char i ≠ '=' := by
  decide

theorem b64EncodeChars_eq_nil_iff (l : List Nat) :
    b64EncodeChars l = [] ↔ l = [] := by
  match l with
  | [] => simp [b64EncodeChars]
  | [b0] => simp [b64EncodeChars]
  | [b0, b1] => simp [b64EncodeChars]
  | b0 :: b1 :: b2 :: rest => simp [b64EncodeChars]

theorem b64DecodeChars_cons (c0 c1 c2 c3 : Char) (rest : List Char)
    (h : rest ≠ []) :
    b64DecodeChars (c0 :: c1 :: c2 :: c3 :: rest) =
      (b64Index c0 * 4 + b64Index c1 / 16) ::
        (b64Index c1 % 16 * 16 + b64Index c2 / 4) ::
        (b64Index c2 % 4 * 64 + b64Index c3) :: b64DecodeChars rest := by
  match rest with
  | [] => exact absurd rfl h
  | r :: rs => rfl

theorem b64DecodeChars_four (c0 c1 c2 c3 : Char) :
    b64DecodeChars [c0, c1, c2, c3] =
      if c2 = '=' then [b64Index c0 * 4 + b64Index c1 / 16]
      else if c3 = '=' then
        [b64Index c0 * 4 + b64Index c1 / 16, b64Index c1 % 16 * 16 + b64Index c2 / 4]
      else
        [b64Index c0 * 4 + b64Index c1 / 16, b64Index c1 % 16 * 16 + b64Index c2 / 4,
          b64Index c2 % 4 * 64 + b64Index c3] := rfl

theorem b64_roundtrip : ∀ l : List Nat, (∀ b ∈ l, b < 256) →
    b64DecodeChars (b64EncodeChars l) = l
  | [], _ => rfl
  | [b0], h => by
    have hb0 : b0 < 256 := h b0 (by simp)
    have h1 : b0 / 4 < 64 := by omega
    have h2 : b0 % 4 * 16 < 64 := by omega
    rw [show b64EncodeChars [b0] =
        [b64Char (b0 / 4), b64Char (b0 % 4 * 16), '=', '='] from rfl,
      b64DecodeChars_four, if_pos rfl,
      b64Index_b64Char _ h1, b64Index_b64Char _ h2]
    congr 1
    omega
  | [b0, b1], h => by
    have hb0 : b0 < 256 := h b0 (by simp)
    have hb1 : b1 < 256 := h b1 (by simp)
    have h1 : b0 / 4 < 64 := by omega
    have h2 : b0 % 4 * 16 + b1 / 16 < 64 := by omega
    have h3 : b1 % 16 * 4 < 64 := by omega
    rw [show b64EncodeChars [b0, b1] =
        [b64Char (b0 / 4), b64Char (b0 % 4 * 16 + b1 / 16),
          b64Char (b1 % 16 * 4), '='] from rfl,
      b64DecodeChars_four,
      if_neg (b64Char_ne_pad _ h3), if_pos rfl,
      b64Index_b64Char _ h1, b64Index_b64Char _ h2, b64Index_b64Char _ h3]
    have e0 : b0 / 4 * 4 + (b0 % 4 * 16 + b1 / 16) / 16 = b0 := by omega
    have e1 : (b0 % 4 * 16 + b1 / 16) % 16 * 16 + b1 % 16 * 4 / 4 = b1 := by omega
    rw [e0, e1]
  | b0 :: b1 :: b2 :: rest, h => by
    have hb0 : b0 < 256 := h b0 (by simp)
    have hb1 : b1 < 256 := h b1 (by simp)
    have hb2 : b2 < 256 := h b2 (by simp)
    have h1 : b0 / 4 < 64 := by omega
    have h2 : b0 % 4 * 16 + b1 / 16 < 64 := by omega
    have h3 : b1 % 16 * 4 + b2 / 64 < 64 := by omega
    have h4 : b2 % 64 < 64 := by omega
    have e0 : b0 / 4 * 4 + (b0 % 4 * 16 + b1 / 16) / 16 = b0 := by omega
    have e1 : (b0 % 4 * 16 + b1 / 16) % 16 * 16 + (b1 % 16 * 4 + b2 / 64) / 4 = b1 := by
      omega
    have e2 : (b1 % 16 * 4 + b2 / 64) % 4 * 64 + b2 % 64 = b2 := by omega
    match rest with
    | [] =>
      rw [show b64EncodeChars [b0, b1, b2] =
          [b64Char (b0 / 4), b64Char (b0 % 4 * 16 + b1 / 16),
            b64Char (b1 % 16 * 4 + b2 / 64), b64Char (b2 % 64)] from rfl,
        b64DecodeChars_four,
        if_neg (b64Char_ne_pad _ h3), if_neg (b64Char_ne_pad _ h4),
        b64Index_b64Char _ h1, b64Index_b64Char _ h2,
        b64Index_b64Char _ h3, b64Index_b64Char _ h4, e0, e1, e2]
    | r :: rs =>
      have ih := b64_roundtrip (r :: rs) (fun b hb => h b (by simp [hb]))
      have hne : b64EncodeChars (r :: rs) ≠ [] := by
        rw [Ne, b64EncodeChars_eq_nil_iff]
        simp
      rw [show b64EncodeChars (b0 :: b1 :: b2 :: r :: rs) =
          b64Char (b0 / 4) :: b64Char (b0 % 4 * 16 + b1 / 16) ::
            b64Char (b1 % 16 * 4 + b2 / 64) :: b64Char (b2 % 64) ::
            b64EncodeChars (r :: rs) from rfl,
        b64DecodeChars_cons _ _ _ _ _ hne,
        b64Index_b64Char _ h1, b64Index_b64Char _ h2,
        b64Index_b64Char _ h3, b64Index_b64Char _ h4, e0, e1, e2, ih]

theorem base64_roundtrip (l : List Nat) (h : ∀ b ∈ l, b < 256) :
    base64ToArrayBuffer (arrayBufferToBase64 l) = l := by
  rw [arrayBufferToBase64, base64ToArrayBuffer]
  exact b64_roundtrip l h

end Crypto

/-! ## Sync-store lemmas -/

namespace Sync

theorem noteGet_notePut_self (db : List Note) (n : Note) :
    noteGet (notePut db n) n.id = some n :=
  tblGet_tblPut_self (fun m : Note => m.id) db n

theorem noteGet_notePut_ne (db : List Note) (n : Note) (i : String)
    (h : i ≠ n.id) : noteGet (notePut db n) i = noteGet db i :=
  tblGet_tblPut_ne (fun m : Note => m.id) db n i h

theorem noteGet_hardDelete_self (db : List Note) (i : String) :
    noteGet (hardDeleteNote db i) i = none :=
  tblGet_tblDelete_self (fun m : Note => m.id) db i

theorem noteGet_hardDelete_ne (db : List Note) (i j : String) (h : i ≠ j) :
    noteGet (hardDeleteNote db j) i = noteGet db i :=
  tblGet_tblDelete_ne (fun m : Note => m.id) db i j h

/-- Once a note id is absent, any push step for a note that is either a
tombstone with that id or a note with another id keeps it absent. -/
theorem noteGet_pushApply_none {d : List Note} {m : Note} {i : String}
    (now : Nat) (hm : m.id = i → m.deleted = true)
    (h : noteGet d i = none) : noteGet (pushApply now d m) i = none := by
  unfold pushApply
  by_cases hd : m.deleted
  · rw [if_pos hd]
    by_cases hi : m.id = i
    · rw [hi]
      exact noteGet_hardDelete_self d i
    · rw [noteGet_hardDelete_ne d i m.id (fun hc => hi hc.symm)]
      exact h
  · rw [if_neg hd]
    cases hg : noteGet d m.id with
    | none => simpa [markAsSynced, hg] using h
    | some n0 =>
      have hn0 : n0.id = m.id := (tblGet_eq_some_mem _ hg).2
      have hi : m.id ≠ i := fun hc => hd (hm hc)
      simp only [markAsSynced, hg]
      rw [noteGet_notePut_ne d _ i (by
        simpa [hn0] using fun hc => hi hc.symm)]
      exact h

/-- Processing the pushed batch after a successful upsert removes every
id that appears in the batch only as a tombstone. -/
theorem pushFold_noteGet_none (now : Nat) (i : String) :
    ∀ (pending : List Note) (d : List Note),
      (∀ m ∈ pending, m.id = i → m.deleted = true) →
      ((∃ m ∈ pending, m.id = i ∧ m.deleted = true) ∨ noteGet d i = none) →
      noteGet (pending.foldl (pushApply now) d) i = none
  | [], d, _, h => by
    rcases h with ⟨m, hm, _⟩ | h
    · cases hm
    · exact h
  | m0 :: rest, d, hall, h => by
    rw [List.foldl_cons]
    rcases h with ⟨m, hm, hid, hdel⟩ | hnone
    · rcases List.mem_cons.mp hm with h1 | h2
      · subst h1
        refine pushFold_noteGet_none now i rest (pushApply now d m)
          (fun x hx => hall x (List.mem_cons_of_mem _ hx)) (Or.inr ?_)
        unfold pushApply
        rw [if_pos hdel, hid]
        exact noteGet_hardDelete_self d i
      · exact pushFold_noteGet_none now i rest (pushApply now d m0)
          (fun x hx => hall x (List.mem_cons_of_mem _ hx))
          (Or.inl ⟨m, h2, hid, hdel⟩)
    · exact pushFold_noteGet_none now i rest (pushApply now d m0)
        (fun x hx => hall x (List.mem_cons_of_mem _ hx))
        (Or.inr (noteGet_pushApply_none now
          (fun hc => hall m0 (List.mem_cons_self _ _) hc) hnone))

/-- The pull phase keeps an id absent as long as every remote row with
that id is a tombstone. -/
theorem pullFold_noteGet_none (now : Nat) (i : String) :
    ∀ (remote : List RemoteNote) (d : List Note),
      (∀ rn ∈ remote, rn.id = i → rn.deleted = true) →
      noteGet d i = none →
      noteGet (pullChanges d remote now) i = none
  | [], _, _, h => h
  | rn :: rest, d, hall, h => by
    unfold pullChanges
    rw [List.foldl_cons]
    have hstep : noteGet
        (if rn.deleted then hardDeleteNote d rn.id
         else notePut d
          { id := rn.id, userId := rn.user_id, title := rn.title,
            content := rn.content, createdAt := rn.created_at,
            updatedAt := rn.updated_at, syncedAt := some now,
            deleted := false }) i = none := by
      by_cases hd : rn.deleted
      · rw [if_pos hd]
        by_cases hi : rn.id = i
        · rw [hi]
          exact noteGet_hardDelete_self d i
        · rw [noteGet_hardDelete_ne d i rn.id (fun hc => hi hc.symm)]
          exact h
      · rw [if_neg hd]
        have hi : rn.id ≠ i := fun hc => hd (hall rn (List.mem_cons_self _ _) hc)
        rw [noteGet_notePut_ne d _ i (fun hc => hi hc.symm)]
        exact h
    exact pullFold_noteGet_none now i rest _
      (fun x hx => hall x (List.mem_cons_of_mem _ hx)) hstep

/-- Cleanliness of a note whose syncedAt stamp is positive and at least
its updatedAt. -/
theorem isDirty_eq_false {n : Note} {s : Nat} (hs : n.syncedAt = some s)
    (h0 : 0 < s) (hle : n.updatedAt ≤ s) : isDirty n = false := by
  rw [isDirty, hs]
  have h1 : jsFalsyNat (some s) = false := by
    simp [jsFalsyNat, Nat.pos_iff_ne_zero.mp h0]
  rw [h1]
  simp [Option.getD, Nat.not_lt.mpr hle]

/-- After a successful push at a positive time not before any owned
note's updatedAt, every owned note in the store is clean, granted every
dirty owned note was in the pushed batch. -/
theorem pushFold_clean (u : String) (t1 : Nat) (h0 : 0 < t1) :
    ∀ (pending : List Note) (d : List Note),
      (d.map (fun n => n.id)).Nodup →
      (∀ x ∈ d, x.userId = some u → x.updatedAt ≤ t1) →
      (∀ x ∈ d, x.userId = some u →
        isDirty x = false ∨ ∃ m ∈ pending, m.id = x.id) →
      ∀ x ∈ pending.foldl (pushApply t1) d, x.userId = some u →
        isDirty x = false
  | [], d, _, _, hesc, x, hx, hown => by
    rcases hesc x hx hown with h | ⟨m, hm, _⟩
    · exact h
    · cases hm
  | m0 :: rest, d, hnd, hup, hesc, x, hx, hown => by
    rw [List.foldl_cons] at hx
    by_cases hd : m0.deleted
    · -- hard delete of the tombstone id
      have hstep : pushApply t1 d m0 = hardDeleteNote d m0.id := by
        unfold pushApply
        rw [if_pos hd]
      rw [hstep] at hx
      refine pushFold_clean u t1 h0 rest (hardDeleteNote d m0.id)
        (keys_tblDelete_nodup _ _ hnd)
        (fun y hy => hup y (mem_tblDelete _ hy).1)
        (fun y hy hyo => ?_) x hx hown
      have hmem := mem_tblDelete (fun n : Note => n.id) hy
      rcases hesc y hmem.1 hyo with hc | ⟨m, hm, hmid⟩
      · exact Or.inl hc
      · rcases List.mem_cons.mp hm with h1 | h2
        · have hyid : m0.id = y.id := by
            rw [← h1]
            exact hmid
          exact (hmem.2 hyid.symm).elim
        · exact Or.inr ⟨m, h2, hmid⟩
    · -- mark the pushed note as synced
      have hstep : pushApply t1 d m0 = markAsSynced d m0.id t1 := by
        unfold pushApply
        rw [if_neg hd]
      rw [hstep] at hx
      cases hg : noteGet d m0.id with
      | none =>
        simp only [markAsSynced, hg] at hx
        refine pushFold_clean u t1 h0 rest d hnd hup
          (fun y hy hyo => ?_) x hx hown
        rcases hesc y hy hyo with hc | ⟨m, hm, hmid⟩
        · exact Or.inl hc
        · rcases List.mem_cons.mp hm with h1 | h2
          · have hyid : (fun n : Note => n.id) y = m0.id := by
              rw [← h1]
              exact hmid.symm
            exact (tblGet_ne_none_of_mem (fun n : Note => n.id) hy hyid hg).elim
          · exact Or.inr ⟨m, h2, hmid⟩
      | some n0 =>
        have hn0 := tblGet_eq_some_mem (fun n : Note => n.id) hg
        have hn0id : n0.id = m0.id := hn0.2
        simp only [markAsSynced, hg] at hx
        refine pushFold_clean u t1 h0 rest
          (notePut d { n0 with syncedAt := some t1 })
          (keys_tblPut_nodup _ _ hnd)
          (fun y hy hyo => ?_) (fun y hy hyo => ?_) x hx hown
        · rcases mem_tblPut_weak (fun n : Note => n.id) hy with h1 | h2
          · subst h1
            exact hup n0 hn0.1 hyo
          · exact hup y h2 hyo
        · rcases mem_tblPut_nodup (fun n : Note => n.id) hnd hy with h1 | h2
          · subst h1
            exact Or.inl (isDirty_eq_false rfl h0 (hup n0 hn0.1 hyo))
          · rcases hesc y h2.1 hyo with hc | ⟨m, hm, hmid⟩
            · exact Or.inl hc
            · rcases List.mem_cons.mp hm with h3 | h4
              · have h5 : y.id = n0.id := by
                  rw [← hmid, h3, hn0id]
                exact (h2.2 h5).elim
              · exact Or.inr ⟨m, h4, hmid⟩

/-- The pull phase preserves cleanliness when the pull time is positive
and not before any pulled row's updated timestamp. -/
theorem pullFold_clean (u : String) (t2 : Nat) (h0 : 0 < t2) :
    ∀ (remote : List RemoteNote) (d : List Note),
      (∀ x ∈ d, x.userId = some u → isDirty x = false) →
      (∀ rn ∈ remote, rn.updated_at ≤ t2) →
      ∀ x ∈ pullChanges d remote t2, x.userId = some u → isDirty x = false
  | [], _, hclean, _, x, hx, hown => hclean x hx hown
  | rn :: rest, d, hclean, hrem, x, hx, hown => by
    unfold pullChanges at hx
    rw [List.foldl_cons] at hx
    refine pullFold_clean u t2 h0 rest _ (fun y hy hyo => ?_)
      (fun z hz => hrem z (List.mem_cons_of_mem _ hz)) x hx hown
    by_cases hd : rn.deleted
    · rw [if_pos hd] at hy
      exact hclean y (mem_tblDelete _ hy).1 hyo
    · rw [if_neg hd] at hy
      rcases mem_tblPut_weak (fun n : Note => n.id) hy with h1 | h2
      · subst h1
        exact isDirty_eq_false rfl h0 (hrem rn (List.mem_cons_self _ _))
      · exact hclean y h2 hyo

/-- An owner's dirty query is empty once every owned note is clean. -/
theorem getUnsyncedNotes_eq_nil {db : List Note} {u : String}
    (h : ∀ x ∈ db, x.userId = some u → isDirty x = false) :
    getUnsyncedNotes db u = [] := by
  rw [getUnsyncedNotes, List.filter_eq_nil_iff]
  intro x hx
  by_cases hown : x.userId = some u
  · simp [hown, h x hx hown]
  · simp [hown]

/-- Folding id-preserving puts of pairwise distinct ids over a store
rewrites exactly the listed ids and leaves every other lookup alone. -/
theorem foldPut_noteGet (f : Note → Note) (hf : ∀ m, (f m).id = m.id) :
    ∀ (pending : List Note) (d : List Note),
      (pending.map (fun m => m.id)).Nodup →
      (∀ m ∈ pending,
        noteGet (pending.foldl (fun acc note => notePut acc (f note)) d)
          m.id = some (f m)) ∧
      (∀ i, (∀ m ∈ pending, m.id ≠ i) →
        noteGet (pending.foldl (fun acc note => notePut acc (f note)) d) i =
          noteGet d i)
  | [], d, _ => ⟨fun m hm => absurd hm (List.not_mem_nil m), fun _ _ => rfl⟩
  | m0 :: rest, d, hnd => by
    rw [List.map_cons, List.nodup_cons] at hnd
    have IH := foldPut_noteGet f hf rest (notePut d (f m0)) hnd.2
    constructor
    · intro m hm
      rw [List.foldl_cons]
      rcases List.mem_cons.mp hm with h1 | h2
      · subst h1
        rw [IH.2 m.id (fun x hx hc => hnd.1 (hc ▸ List.mem_map_of_mem _ hx))]
        have := noteGet_notePut_self d (f m)
        rwa [hf m] at this
      · exact IH.1 m h2
    · intro i hi
      rw [List.foldl_cons,
        IH.2 i (fun m hm => hi m (List.mem_cons_of_mem _ hm))]
      refine noteGet_notePut_ne d (f m0) i ?_
      intro hc
      refine hi m0 (List.mem_cons_self _ _) ?_
      rw [hf m0] at hc
      exact hc.symm

end Sync

/-! ## Claims -/

/-- C1: for every plaintext string p and password pw, decrypting the
envelope produced by encrypting p with pw, using the same password,
returns exactly p.  The facts about the abstract browser primitives that
the code relies on appear as hypotheses: the AEAD output is a byte
sequence whose decryption under the same key and nonce recovers the
input, and the text codec round-trips p. -/
theorem encrypt_decrypt_roundtrip (P : Crypto.CryptoPlatform)
    (p pw : String) (salt nonce : List Nat)
    (hsalt : ∀ b ∈ salt, b < 256) (hnonce : ∀ b ∈ nonce, b < 256)
    (henc : ∀ b ∈ P.aeadEncrypt (P.deriveKey pw salt) nonce (P.utf8Encode p),
      b < 256)
    (hopen : P.aeadDecrypt (P.deriveKey pw salt) nonce
        (P.aeadEncrypt (P.deriveKey pw salt) nonce (P.utf8Encode p)) =
      some (P.utf8Encode p))
    (hutf : P.utf8Decode (P.utf8Encode p) = p) :
    Crypto.decryptContent P (Crypto.encryptContent P p pw salt nonce) pw =
      Except.ok p := by
  have hct : ∀ b ∈ (P.aeadEncrypt (P.deriveKey pw salt) nonce
      (P.utf8Encode p)).take
        ((P.aeadEncrypt (P.deriveKey pw salt) nonce (P.utf8Encode p)).length - 16),
      b < 256 :=
    fun b hb => henc b (List.take_subset _ _ hb)
  have htg : ∀ b ∈ (P.aeadEncrypt (P.deriveKey pw salt) nonce
      (P.utf8Encode p)).drop
        ((P.aeadEncrypt (P.deriveKey pw salt) nonce (P.utf8Encode p)).length - 16),
      b < 256 :=
    fun b hb => henc b (List.drop_subset _ _ hb)
  simp only [Crypto.encryptContent, Crypto.decryptContent]
  rw [Crypto.base64_roundtrip _ hsalt, Crypto.base64_roundtrip _ hnonce,
    Crypto.base64_roundtrip _ hct, Crypto.base64_roundtrip _ htg,
    List.take_append_drop, hopen]
  exact congrArg Except.ok hutf

/-- C1 witness: the round-trip evaluated on the concrete platform. -/
theorem encrypt_decrypt_roundtrip_witness :
    Crypto.decryptContent toyPlatform
        (Crypto.encryptContent toyPlatform "hi" "pw" [1, 2] [3]) "pw" =
      Except.ok "hi" :=
  encrypt_decrypt_roundtrip toyPlatform "hi" "pw" [1, 2] [3]
    (by decide) (by decide) (by decide) (by decide) (by decide)

/-- C2: whenever the authenticated decryption primitive rejects the
reassembled ciphertext and tag under the key derived from the supplied
password, which AES-GCM does for a wrong password or for a tampered
cipherText or authTag, decryptContent fails with the authentication error
and never returns any plaintext: decryption is all-or-nothing at the
wrapper level. -/
theorem decrypt_tamper_rejects (P : Crypto.CryptoPlatform) (pw : String)
    (ct tg salt nonce : List Nat)
    (hct : ∀ b ∈ ct, b < 256) (htg : ∀ b ∈ tg, b < 256)
    (hsalt : ∀ b ∈ salt, b < 256) (hnonce : ∀ b ∈ nonce, b < 256)
    (hreject : P.aeadDecrypt (P.deriveKey pw salt) nonce (ct ++ tg) = none) :
    Crypto.decryptContent P
        { encryptedContent := Crypto.arrayBufferToBase64 ct,
          salt := Crypto.arrayBufferToBase64 salt,
          nonce := Crypto.arrayBufferToBase64 nonce,
          authTag := Crypto.arrayBufferToBase64 tg } pw =
      Except.error Crypto.DecryptError.authenticationError := by
  simp only [Crypto.decryptContent]
  rw [Crypto.base64_roundtrip _ hsalt, Crypto.base64_roundtrip _ hnonce,
    Crypto.base64_roundtrip _ hct, Crypto.base64_roundtrip _ htg, hreject]

/-- C2 witness: on the concrete platform, a bit flip in the first
ciphertext byte of a genuine envelope is rejected with the authentication
error. -/
theorem decrypt_tamper_rejects_witness :
    toyPlatform.aeadDecrypt (toyPlatform.deriveKey "pw" [1, 2]) [3]
        ([105, 105] ++ toyTag (toyPlatform.deriveKey "pw" [1, 2]) [3] [104, 105]) =
      none ∧
    Crypto.decryptContent toyPlatform
        { encryptedContent := Crypto.arrayBufferToBase64 [105, 105],
          salt := Crypto.arrayBufferToBase64 [1, 2],
          nonce := Crypto.arrayBufferToBase64 [3],
          authTag := Crypto.arrayBufferToBase64
            (toyTag (toyPlatform.deriveKey "pw" [1, 2]) [3] [104, 105]) } "pw" =
      Except.error Crypto.DecryptError.authenticationError :=
  ⟨by decide,
    decrypt_tamper_rejects toyPlatform "pw" [105, 105]
      (toyTag (toyPlatform.deriveKey "pw" [1, 2]) [3] [104, 105]) [1, 2] [3]
      (by decide) (by decide) (by decide) (by decide) (by decide)⟩

/-- C3: when the push phase's remote batch upsert fails, no local write
runs: the store after pushChanges is exactly the store before it, so every
pushed document keeps its syncedAt, updatedAt, deleted flag and content,
and the dirty set is unchanged for the next cycle. -/
theorem push_failure_no_local_change (db : List Sync.Note) (u : String)
    (now : Nat) :
    (Sync.pushChanges db u false now).2 = db ∧
    Sync.getUnsyncedNotes (Sync.pushChanges db u false now).2 u =
      Sync.getUnsyncedNotes db u := by
  have h : (Sync.pushChanges db u false now).2 = db := by
    by_cases hc : (Sync.getUnsyncedNotes db u).isEmpty <;>
      simp [Sync.pushChanges, hc]
  exact ⟨h, by rw [h]⟩

/-- C4: the in-progress flag makes sync single-flight: a trigger arriving
while a cycle is in flight leaves the engine unchanged and issues nothing,
and two back-to-back triggers from idle leave exactly one cycle pending
whose completion puts exactly one push batch and one pull batch in
flight. -/
theorem sync_single_flight :
    (∀ e : Sync.Engine, e.isSyncing = true → Sync.syncTrigger e = e) ∧
    Sync.syncTrigger (Sync.syncTrigger Sync.idleEngine) =
      Sync.syncTrigger Sync.idleEngine ∧
    (Sync.runCycle (Sync.syncTrigger (Sync.syncTrigger Sync.idleEngine))).2 =
      [Sync.SyncPhase.push, Sync.SyncPhase.pull] := by
  refine ⟨fun e he => ?_, by decide, by decide⟩
  rw [Sync.syncTrigger, if_pos he]

/-- C4 witness: a trigger against an engine with a cycle in flight is
dropped. -/
theorem sync_single_flight_witness :
    Sync.syncTrigger { isSyncing := true, pending := [Sync.SyncPhase.pull] } =
      { isSyncing := true, pending := [Sync.SyncPhase.pull] } :=
  sync_single_flight.1 { isSyncing := true, pending := [Sync.SyncPhase.pull] } rfl

/-- C9 counterexample: saveNote accepts a note holding only the salt field
of the envelope; no validation rejects it, it is stored as given, and the
stored document violates the joint-presence invariant. -/
theorem envelope_validation_missing :
    (EncDb.saveNote [] brokenEnvelopeNote).2 = [brokenEnvelopeNote] ∧
    EncDb.envelopeWellFormed brokenEnvelopeNote = false ∧
    (EncDb.saveNote [] brokenEnvelopeNote).1 =
      some { id := "n1", user_id := "u1", title := "t", content := "c",
             created_at := 1, updated_at := 1, encrypted_content := none,
             salt := some "s", nonce := none, auth_tag := none } := by
  decide

/-- C9 amended: the store performs no envelope validation: saveNote always
stores the note exactly as given, partial envelope included; the
joint-presence invariant is maintained only by the callers, which always
set or clear the four fields together. -/
theorem saveNote_stores_verbatim (db : List EncDb.ENote)
    (note : EncDb.ENote) :
    EncDb.enoteGet (EncDb.saveNote db note).2 note.id = some note :=
  tblGet_tblPut_self (fun n : EncDb.ENote => n.id) db note

/-- C5 counterexample: soft-deleting a never-synced owned document does
not remove it from the local store, and the next sync cycle does make a
network call for it: the tombstone is in the push batch. -/
theorem never_synced_delete_not_immediate :
    Sync.noteGet (Sync.deleteNote [neverSyncedNote] "a" 5) "a" ≠ none ∧
    (Sync.pushChanges (Sync.deleteNote [neverSyncedNote] "a" 5) "u" true 6).1 =
      some [Sync.noteToRemote
        { neverSyncedNote with deleted := true, updatedAt := 5 }] := by
  decide

/-- C5 amended: soft-deleting an owned document leaves a tombstone in the
local store; whether or not the document had been synced, the tombstone is
dirty, so the next successful sync cycle sends it in the push batch (a
network call) and then hard-purges it locally, and a pull whose rows carry
no live record with that id keeps it purged.  Removal is never immediate
and never without a network call. -/
theorem tombstone_purged_after_push (db : List Sync.Note) (n : Sync.Note)
    (u i : String) (tDel tPush : Nat)
    (hnd : (db.map (fun m => m.id)).Nodup)
    (hmem : n ∈ db) (hid : n.id = i) (hown : n.userId = some u)
    (hdirty : Sync.isDirty { n with deleted := true, updatedAt := tDel } = true) :
    Sync.noteGet (Sync.deleteNote db i tDel) i =
      some { n with deleted := true, updatedAt := tDel } ∧
    (∃ batch,
      (Sync.pushChanges (Sync.deleteNote db i tDel) u true tPush).1 =
        some batch ∧
      Sync.noteToRemote { n with deleted := true, updatedAt := tDel } ∈ batch) ∧
    Sync.noteGet
      (Sync.pushChanges (Sync.deleteNote db i tDel) u true tPush).2 i = none ∧
    (∀ (remote : List Sync.RemoteNote) (tPull : Nat),
      (∀ rn ∈ remote, rn.id = i → rn.deleted = true) →
      Sync.noteGet (Sync.pullChanges
        (Sync.pushChanges (Sync.deleteNote db i tDel) u true tPush).2
        remote tPull) i = none) := by
  subst hid
  have hget : Sync.noteGet db n.id = some n :=
    tblGet_of_mem_nodup (fun m : Sync.Note => m.id) hnd hmem
  have hdel : Sync.deleteNote db n.id tDel =
      Sync.notePut db { n with deleted := true, updatedAt := tDel } := by
    simp only [Sync.deleteNote, hget]
  have htomb : Sync.noteGet (Sync.deleteNote db n.id tDel) n.id =
      some { n with deleted := true, updatedAt := tDel } := by
    rw [hdel]
    exact Sync.noteGet_notePut_self db
      { n with deleted := true, updatedAt := tDel }
  have hnd1 : ((Sync.deleteNote db n.id tDel).map (fun m => m.id)).Nodup := by
    rw [hdel]
    exact keys_tblPut_nodup _ _ hnd
  have htmem : { n with deleted := true, updatedAt := tDel } ∈
      Sync.deleteNote db n.id tDel := (tblGet_eq_some_mem _ htomb).1
  have hunsy : { n with deleted := true, updatedAt := tDel } ∈
      Sync.getUnsyncedNotes (Sync.deleteNote db n.id tDel) u := by
    refine List.mem_filter.mpr ⟨htmem, ?_⟩
    show (({ n with deleted := true, updatedAt := tDel } : Sync.Note).userId
        == some u &&
      Sync.isDirty { n with deleted := true, updatedAt := tDel }) = true
    rw [Bool.and_eq_true]
    refine ⟨?_, hdirty⟩
    show (n.userId == some u) = true
    rw [hown]
    exact beq_self_eq_true (some u)
  have hempty : (Sync.getUnsyncedNotes (Sync.deleteNote db n.id tDel) u).isEmpty
      = false := by
    cases hl : Sync.getUnsyncedNotes (Sync.deleteNote db n.id tDel) u with
    | nil =>
      rw [hl] at hunsy
      cases hunsy
    | cons a as => rfl
  have hall : ∀ m ∈ Sync.getUnsyncedNotes (Sync.deleteNote db n.id tDel) u,
      m.id = n.id → m.deleted = true := by
    intro m hm hmi
    have hmdb : m ∈ Sync.deleteNote db n.id tDel := (List.mem_filter.mp hm).1
    have heq : m = { n with deleted := true, updatedAt := tDel } :=
      mem_unique_of_nodup (fun x : Sync.Note => x.id) hnd1 hmdb htmem hmi
    rw [heq]
  have hpush : Sync.pushChanges (Sync.deleteNote db n.id tDel) u true tPush =
      (some ((Sync.getUnsyncedNotes (Sync.deleteNote db n.id tDel) u).map
          Sync.noteToRemote),
        (Sync.getUnsyncedNotes (Sync.deleteNote db n.id tDel) u).foldl
          (Sync.pushApply tPush) (Sync.deleteNote db n.id tDel)) := by
    simp [Sync.pushChanges, hempty]
  have hpurged : Sync.noteGet
      (Sync.pushChanges (Sync.deleteNote db n.id tDel) u true tPush).2 n.id =
      none := by
    rw [hpush]
    exact Sync.pushFold_noteGet_none tPush n.id _ _ hall
      (Or.inl ⟨{ n with deleted := true, updatedAt := tDel }, hunsy, rfl, rfl⟩)
  refine ⟨htomb, ?_, hpurged, ?_⟩
  · refine ⟨(Sync.getUnsyncedNotes (Sync.deleteNote db n.id tDel) u).map
      Sync.noteToRemote, ?_, ?_⟩
    · rw [hpush]
    · exact List.mem_map_of_mem Sync.noteToRemote hunsy
  · intro remote tPull hrem
    exact Sync.pullFold_noteGet_none tPull n.id remote _ hrem hpurged

/-- C5 witness: a synced document is tombstoned by deleteNote and gone
from the local store after the push and pull of one successful cycle. -/
theorem tombstone_purged_after_push_witness :
    Sync.noteGet (Sync.deleteNote [syncedNote] "a" 5) "a" =
      some { syncedNote with deleted := true, updatedAt := 5 } ∧
    Sync.noteGet
      (Sync.pushChanges (Sync.deleteNote [syncedNote] "a" 5) "u" true 6).2 "a" =
      none ∧
    Sync.noteGet (Sync.pullChanges
      (Sync.pushChanges (Sync.deleteNote [syncedNote] "a" 5) "u" true 6).2
      [] 7) "a" = none :=
  ⟨(tombstone_purged_after_push [syncedNote] syncedNote "u" "a" 5 6
      (by decide) (by decide) rfl rfl (by decide)).1,
    (tombstone_purged_after_push [syncedNote] syncedNote "u" "a" 5 6
      (by decide) (by decide) rfl rfl (by decide)).2.2.1,
    (tombstone_purged_after_push [syncedNote] syncedNote "u" "a" 5 6
      (by decide) (by decide) rfl rfl (by decide)).2.2.2 [] 7 (by decide)⟩

/-- C6 counterexample: soft delete does not clear the content to empty;
the tombstoned record keeps its body. -/
theorem soft_delete_keeps_content :
    (Sync.noteGet (Sync.deleteNote [neverSyncedNote] "a" 5) "a").map
        (fun n => n.content) = some "body" ∧
    ("body" : String) ≠ "" := by
  decide

/-- C6 amended: soft delete retains the record in the local store, sets
the tombstone flag and stamps updatedAt with the current time, strictly
increasing it whenever the clock has advanced past the previous
updatedAt; the content is left unchanged, not cleared. -/
theorem soft_delete_tombstones (db : List Sync.Note) (n : Sync.Note)
    (i : String) (t : Nat) (hnd : (db.map (fun m => m.id)).Nodup)
    (hmem : n ∈ db) (hid : n.id = i) (ht : n.updatedAt < t) :
    Sync.noteGet (Sync.deleteNote db i t) i =
      some { n with deleted := true, updatedAt := t } ∧
    ({ n with deleted := true, updatedAt := t } : Sync.Note).content =
      n.content ∧
    n.updatedAt <
      ({ n with deleted := true, updatedAt := t } : Sync.Note).updatedAt := by
  subst hid
  have hget : Sync.noteGet db n.id = some n :=
    tblGet_of_mem_nodup (fun m : Sync.Note => m.id) hnd hmem
  refine ⟨?_, rfl, ht⟩
  simp only [Sync.deleteNote, hget]
  exact Sync.noteGet_notePut_self db { n with deleted := true, updatedAt := t }

/-- C6 witness: the amended soft-delete behaviour on a concrete store. -/
theorem soft_delete_tombstones_witness :
    Sync.noteGet (Sync.deleteNote [neverSyncedNote] "a" 5) "a" =
      some { neverSyncedNote with deleted := true, updatedAt := 5 } :=
  (soft_delete_tombstones [neverSyncedNote] neverSyncedNote "a" 5
    (by decide) (by decide) rfl (by decide)).1

/-- C7: after migrateAnonymousNotes, every previously anonymous
non-tombstoned document carries the new owner, has its updatedAt bumped to
the migration time, and is dirty, hence in the owner's next dirty query;
tombstoned and already-owned documents are untouched.  The hypotheses pin
the reachable states: anonymous notes have never synced and the clock is
past their updatedAt. -/
theorem migrate_ownership_dirtiness (db : List Sync.Note) (u : String)
    (t : Nat) (hnd : (db.map (fun m => m.id)).Nodup)
    (hsync : ∀ n ∈ db, jsFalsyStr n.userId = true → n.syncedAt = none)
    (hup : ∀ n ∈ db, jsFalsyStr n.userId = true → n.updatedAt < t) :
    (∀ n ∈ db, jsFalsyStr n.userId = true → n.deleted = false →
      Sync.noteGet (Sync.migrateAnonymousNotes db u t) n.id =
        some { n with userId := some u, updatedAt := t } ∧
      { n with userId := some u, updatedAt := t } ∈
        Sync.getUnsyncedNotes (Sync.migrateAnonymousNotes db u t) u ∧
      n.updatedAt < t) ∧
    (∀ n ∈ db, ¬(jsFalsyStr n.userId = true ∧ n.deleted = false) →
      Sync.noteGet (Sync.migrateAnonymousNotes db u t) n.id = some n) := by
  have hpnd : ((db.filter
      (fun n => jsFalsyStr n.userId && !n.deleted)).map (fun m => m.id)).Nodup :=
    ((List.filter_sublist db).map (fun m : Sync.Note => m.id)).nodup hnd
  have hfold := Sync.foldPut_noteGet
    (fun note => { note with userId := some u, updatedAt := t })
    (fun _ => rfl)
    (db.filter (fun n => jsFalsyStr n.userId && !n.deleted)) db hpnd
  constructor
  · intro n hn hanon hdel
    have hp : n ∈ db.filter (fun n => jsFalsyStr n.userId && !n.deleted) :=
      List.mem_filter.mpr ⟨hn, by simp [hanon, hdel]⟩
    have hmig : Sync.noteGet (Sync.migrateAnonymousNotes db u t) n.id =
        some { n with userId := some u, updatedAt := t } := hfold.1 n hp
    refine ⟨hmig, ?_, hup n hn hanon⟩
    refine List.mem_filter.mpr ⟨(tblGet_eq_some_mem _ hmig).1, ?_⟩
    have hsy : n.syncedAt = none := hsync n hn hanon
    simp [Sync.isDirty, jsFalsyNat, hsy]
  · intro n hn hnot
    have hni : ∀ m ∈ db.filter (fun n => jsFalsyStr n.userId && !n.deleted),
        m.id ≠ n.id := by
      intro m hm hc
      have hmdb := (List.mem_filter.mp hm).1
      have : m = n := mem_unique_of_nodup (fun x : Sync.Note => x.id)
        hnd hmdb hn hc
      subst this
      have hpred := (List.mem_filter.mp hm).2
      rw [Bool.and_eq_true, Bool.not_eq_true'] at hpred
      exact hnot ⟨hpred.1, hpred.2⟩
    have huntouched := hfold.2 n.id hni
    have h2 : Sync.noteGet db n.id = some n :=
      tblGet_of_mem_nodup (fun m : Sync.Note => m.id) hnd hn
    exact huntouched.trans h2

/-- C7 witness: migration of a single anonymous note. -/
theorem migrate_ownership_dirtiness_witness :
    Sync.noteGet (Sync.migrateAnonymousNotes [anonNote] "u1" 9) "a" =
      some { anonNote with userId := some "u1", updatedAt := 9 } ∧
    { anonNote with userId := some "u1", updatedAt := 9 } ∈
      Sync.getUnsyncedNotes (Sync.migrateAnonymousNotes [anonNote] "u1" 9) "u1" :=
  ⟨((migrate_ownership_dirtiness [anonNote] "u1" 9 (by decide) (by decide)
      (by decide)).1 anonNote (by decide) rfl rfl).1,
    ((migrate_ownership_dirtiness [anonNote] "u1" 9 (by decide) (by decide)
      (by decide)).1 anonNote (by decide) rfl rfl).2.1⟩

/-- C8: after one fully successful sync cycle at times past every local
and remote timestamp, with no edits in between, the owner's dirty query is
empty, so a second push returns before contacting the remote store: it
sends no batch and changes nothing locally. -/
theorem dirty_idempotence (db : List Sync.Note) (u : String)
    (remote : List Sync.RemoteNote) (t1 t2 t3 : Nat) (ok : Bool)
    (hnd : (db.map (fun m => m.id)).Nodup)
    (h1 : ∀ n ∈ db, n.userId = some u → n.updatedAt ≤ t1)
    (h2 : 0 < t1) (h3 : 0 < t2)
    (h4 : ∀ rn ∈ remote, rn.updated_at ≤ t2) :
    Sync.getUnsyncedNotes (Sync.syncCycle db u true remote t1 t2).2 u = [] ∧
    (Sync.pushChanges (Sync.syncCycle db u true remote t1 t2).2 u ok t3).1 =
      none ∧
    (Sync.pushChanges (Sync.syncCycle db u true remote t1 t2).2 u ok t3).2 =
      (Sync.syncCycle db u true remote t1 t2).2 := by
  have hpush : ∀ x ∈ (Sync.pushChanges db u true t1).2, x.userId = some u →
      Sync.isDirty x = false := by
    by_cases hempty : (Sync.getUnsyncedNotes db u).isEmpty
    · have hnil : Sync.getUnsyncedNotes db u = [] := by
        cases hl : Sync.getUnsyncedNotes db u with
        | nil => rfl
        | cons a as =>
          rw [hl] at hempty
          cases hempty
      have hsame : (Sync.pushChanges db u true t1).2 = db := by
        simp [Sync.pushChanges, hempty]
      rw [hsame]
      intro x hx hxo
      by_cases hdx : Sync.isDirty x
      · have hmemu : x ∈ Sync.getUnsyncedNotes db u :=
          List.mem_filter.mpr ⟨hx, by simp [hxo, hdx]⟩
        rw [hnil] at hmemu
        cases hmemu
      · exact Bool.eq_false_iff.mpr hdx
    · have hsome : (Sync.pushChanges db u true t1).2 =
          (Sync.getUnsyncedNotes db u).foldl (Sync.pushApply t1) db := by
        simp [Sync.pushChanges, hempty]
      rw [hsome]
      refine Sync.pushFold_clean u t1 h2 (Sync.getUnsyncedNotes db u) db hnd h1
        (fun x hx hxo => ?_)
      by_cases hdx : Sync.isDirty x
      · exact Or.inr ⟨x, List.mem_filter.mpr ⟨hx, by simp [hxo, hdx]⟩, rfl⟩
      · exact Or.inl (Bool.eq_false_iff.mpr hdx)
  have hclean : ∀ x ∈ (Sync.syncCycle db u true remote t1 t2).2,
      x.userId = some u → Sync.isDirty x = false :=
    Sync.pullFold_clean u t2 h3 remote (Sync.pushChanges db u true t1).2 hpush h4
  have hnil2 : Sync.getUnsyncedNotes (Sync.syncCycle db u true remote t1 t2).2 u
      = [] := Sync.getUnsyncedNotes_eq_nil hclean
  refine ⟨hnil2, ?_, ?_⟩ <;> simp [Sync.pushChanges, hnil2]

/-- C8 witness: one dirty note pushed at time ten is clean afterwards, so
the follow-up push sends nothing. -/
theorem dirty_idempotence_witness :
    Sync.getUnsyncedNotes (Sync.syncCycle [neverSyncedNote] "u" true [] 10 11).2
      "u" = [] ∧
    (Sync.pushChanges (Sync.syncCycle [neverSyncedNote] "u" true [] 10 11).2
      "u" true 12).1 = none :=
  ⟨(dirty_idempotence [neverSyncedNote] "u" [] 10 11 12 true (by decide)
      (by decide) (by decide) (by decide) (by decide)).1,
    (dirty_idempotence [neverSyncedNote] "u" [] 10 11 12 true (by decide)
      (by decide) (by decide) (by decide) (by decide)).2.1⟩

/-- C10: cachePassword stores the password with expiry exactly thirty
minutes after the current time; getCachedPassword returns it while the
current time has not passed the expiry, and once the current time is past
the expiry it returns nothing and evicts the entry. -/
theorem password_cache_expiry (cache : Crypto.PasswordCache)
    (noteId password : String) (now t : Nat) :
    tblGet Crypto.cacheKey (Crypto.cachePassword cache noteId password now)
        noteId =
      some (noteId, { password := password, expiresAt := now + 30 * 60 * 1000 }) ∧
    (t ≤ now + 30 * 60 * 1000 →
      (Crypto.getCachedPassword (Crypto.cachePassword cache noteId password now)
          noteId t).1 = some password) ∧
    (now + 30 * 60 * 1000 < t →
      (Crypto.getCachedPassword (Crypto.cachePassword cache noteId password now)
          noteId t).1 = none ∧
      tblGet Crypto.cacheKey
        (Crypto.getCachedPassword (Crypto.cachePassword cache noteId password now)
          noteId t).2 noteId = none) := by
  have hget : tblGet Crypto.cacheKey
      (Crypto.cachePassword cache noteId password now) noteId =
      some (noteId,
        { password := password, expiresAt := now + 30 * 60 * 1000 }) :=
    tblGet_tblPut_self Crypto.cacheKey cache
      (noteId, { password := password, expiresAt := now + 30 * 60 * 1000 })
  refine ⟨hget, fun hfresh => ?_, fun hstale => ?_⟩
  · simp only [Crypto.getCachedPassword, hget]
    rw [if_neg (by simpa using Nat.not_lt.mpr hfresh)]
  · simp only [Crypto.getCachedPassword, hget]
    rw [if_pos (by simpa using hstale)]
    exact ⟨rfl, tblGet_tblDelete_self Crypto.cacheKey _ noteId⟩

/-- C10 witness: a password cached at time zero is still returned at the
thirty-minute mark and is gone with the entry evicted one millisecond
later. -/
theorem password_cache_expiry_witness :
    (Crypto.getCachedPassword (Crypto.cachePassword [] "a" "pw" 0) "a"
        1800000).1 = some "pw" ∧
    (Crypto.getCachedPassword (Crypto.cachePassword [] "a" "pw" 0) "a"
        1800001).1 = none ∧
    tblGet Crypto.cacheKey
      (Crypto.getCachedPassword (Crypto.cachePassword [] "a" "pw" 0) "a"
        1800001).2 "a" = none :=
  ⟨(password_cache_expiry [] "a" "pw" 0 1800000).2.1 (by decide),
    ((password_cache_expiry [] "a" "pw" 0 1800001).2.2 (by decide)).1,
    ((password_cache_expiry [] "a" "pw" 0 1800001).2.2 (by decide)).2⟩

end McxNotes
